import Mathlib

/-!
Verification development for the RAGChecker parameter-analysis engine
(`src/analysis/parameter_analysis.py`).

The Python code operates on a pandas DataFrame whose feature columns hold
either floating-point numbers or strings (built by `_extract_row`: every
`runParameters` value becomes `float(v)` or `str(v)`), with `NaN` marking a
missing entry.  The embedding models a cell as `Option PyVal` (with `none`
for `NaN`), a column as a named list of cells, and the frame as a list of
feature columns plus the target-metric column.  Floating-point arithmetic
of the source is embedded as exact rational arithmetic.
-/

/-- A Python value as it occurs in the analysis: an `int` (produced by the
Optuna integer suggestions and by `int(...)` casts), a `float`, or a `str`.
Dataframe cells only ever hold `floatV` or `strV`. -/
inductive PyVal where
  | intV (z : ℤ)
  | floatV (q : ℚ)
  | strV (s : String)
deriving DecidableEq, Repr

/-- Model of Python `str(x)` for a float `x`, on the rationals embedding the
floats.  Exact for whole numbers (`str(7.0) = "7.0"`); for non-integral
rationals a `num/den` form stands in for the decimal expansion (the model
only relies on the representation being injective, which both are). -/
def pyFloatStr (q : ℚ) : String :=
  if q.den = 1 then toString q.num ++ ".0"
  else toString q.num ++ "/" ++ toString q.den

/-- Model of Python `str` applied to a parameter value. -/
def PyVal.pyStr : PyVal → String
  | .intV z => toString z
  | .floatV q => pyFloatStr q
  | .strV s => s

/-- Lexicographic comparison of character lists by Unicode code point,
modelling Python's `<` on `str`. -/
def lexCharLt : List Char → List Char → Bool
  | [], [] => false
  | [], _ :: _ => true
  | _ :: _, [] => false
  | a :: s, b :: t =>
    if a.toNat < b.toNat then true
    else if b.toNat < a.toNat then false
    else lexCharLt s t

/-- Python string comparison `a < b` (lexicographic by code point). -/
def strLt (a b : String) : Bool := lexCharLt a.data b.data

/-- Stable insertion of `a` into `l` for the strictly-before relation `lt`:
`a` moves past exactly the elements that must come strictly before it, so
when `stableSort` inserts the original head into the sorted tail, elements
with equal keys keep their original relative order. -/
def stableInsert (lt : α → α → Bool) (a : α) : List α → List α
  | [] => [a]
  | b :: l => if lt b a then b :: stableInsert lt a l else a :: b :: l

/-- Stable ascending sort by the strict comparison `lt`, modelling the
stable sorts of the source (Python `sorted`, `list.sort`, and pandas
`sort_values` on the small arrays the tool handles). -/
def stableSort (lt : α → α → Bool) : List α → List α
  | [] => []
  | a :: l => stableInsert lt a (stableSort lt l)

/-- Python `sorted` on a list of strings. -/
def sortedStrs (l : List String) : List String := stableSort strLt l

/-- A dataframe column: its label and one cell per run (`none` = `NaN`). -/
structure Col where
  name : String
  vals : List (Option PyVal)
deriving DecidableEq, Repr

/-- The analysis dataframe restricted to what the engine reads: the feature
(parameter) columns and the target-metric column. -/
structure Frame where
  feats : List Col
  target : List (Option ℚ)
deriving DecidableEq, Repr

/-- Number of runs (`len(df)`). -/
def Frame.nRows (F : Frame) : ℕ := F.target.length

/-- Model of `series = df[col].dropna()`: the present values, in row order. -/
def Col.presentVals (c : Col) : List PyVal := c.vals.filterMap id

/-- Model of `pd.api.types.is_numeric_dtype(df[col])`: a pandas column built from
floats and `NaN` has a numeric dtype; one string anywhere makes the dtype
`object`.  (An all-`NaN` column is `float64`, hence numeric.) -/
def Col.isNumeric (c : Col) : Bool :=
  c.presentVals.all fun v => match v with | .strV _ => false | _ => true

/-- The distinct elements of a list in order of first appearance, modelling
pandas `Series.unique()`. -/
def firstUniques [DecidableEq α] : List α → List α
  | [] => []
  | a :: l => a :: (firstUniques l).filter (· ≠ a)

/-- Model of `series.nunique()` over the present values of a column. -/
def Col.nuniq (c : Col) : ℕ := (firstUniques c.presentVals).length

/-- The present values of a numeric column, as rationals. -/
def Col.nums (c : Col) : List ℚ :=
  c.vals.filterMap fun v => match v with | some (.floatV q) => some q | _ => none

/-- Arithmetic mean of a list (`Series.mean()` over present values);
`0` on the empty list (where pandas yields `NaN` — callers guard). -/
def qMean (l : List ℚ) : ℚ := l.sum / l.length

/-- Sample variance with one delta degree of freedom, matching pandas
`Series.var()`/the square of `Series.std()`; `0` when fewer than two
values (where pandas yields `NaN` — callers guard). -/
def qVar (l : List ℚ) : ℚ :=
  if l.length < 2 then 0
  else ((l.map (fun x => (x - qMean l) ^ 2)).sum) / (l.length - 1 : ℕ)

/-- Smallest element of a list of rationals (`Series.min()`); `0` when empty. -/
def qListMin : List ℚ → ℚ
  | [] => 0
  | a :: l => l.foldl min a

/-- Largest element of a list of rationals (`Series.max()`); `0` when empty. -/
def qListMax : List ℚ → ℚ
  | [] => 0
  | a :: l => l.foldl max a

/-- pandas `Series.median()` over the present values: the middle element of
the sorted values, or the average of the two middle elements; `none` when
no value is present (the median of an all-`NaN` series is `NaN`). -/
def qMedian (l : List ℚ) : Option ℚ :=
  if l.length = 0 then none
  else
    let s := stableSort (fun a b => decide (a < b)) l
    some (if l.length % 2 = 1 then s.getD (l.length / 2) 0
          else (s.getD (l.length / 2 - 1) 0 + s.getD (l.length / 2) 0) / 2)

/-- Model of `x == round(x)`: a float is a whole number. -/
def isWhole (q : ℚ) : Bool := q.den = 1

/-!
## Feature Codec (`encode_features`, parameter_analysis.py lines 161-169)

```python
df_enc = df[feature_cols].copy()
for col in df_enc.select_dtypes(include=["object", "category"]).columns.tolist():
    dummies = pd.get_dummies(df_enc[col], prefix=col, dummy_na=False)
    df_enc = pd.concat([df_enc.drop(columns=[col]), dummies], axis=1)
for col in df_enc.select_dtypes(include=[np.number]).columns:
    df_enc[col] = df_enc[col].fillna(df_enc[col].median())
return df_enc.astype(float)
```

Each object (string-holding) column is replaced by one 0/1 indicator column
per distinct present value, appended at the end in processing order (and the
indicator columns of one source column appear in sorted order of their
categories, as `pd.get_dummies` emits them).  Numeric columns are then
imputed with their median.  An encoded cell can still be `none`: `fillna`
with the `NaN` median of an all-missing column leaves the cell missing.
-/

/-- An encoded column of the feature table: label plus one rational per row,
with `none` for a cell that is still `NaN` after imputation. -/
abbrev EncCol := String × List (Option ℚ)

/-- The numeric view of a numeric column's cells. -/
def Col.cellNums (c : Col) : List (Option ℚ) :=
  c.vals.map fun v => match v with | some (.floatV q) => some q | _ => none

/-- Model of `fillna(series.median())`: replace each missing cell by the median of the
present cells (a no-op on the missing cells when no cell is present). -/
def imputeMedian (l : List (Option ℚ)) : List (Option ℚ) :=
  let m := qMedian (l.filterMap id)
  l.map fun v => match v with | some q => some q | none => m

/-- Model of `pd.get_dummies(df_enc[col], prefix=col, dummy_na=False)`: one indicator
column per distinct present value, categories in sorted order; a missing
cell yields an all-zero indicator row. -/
def dummiesFor (c : Col) : List EncCol :=
  (stableSort (fun a b => strLt a.pyStr b.pyStr) (firstUniques c.presentVals)).map
    fun v => (c.name ++ "_" ++ v.pyStr,
              c.vals.map fun w => some (if w = some v then (1 : ℚ) else 0))

/-- The Feature Codec: one-hot expansion of the object columns (appended at
the end, in column order) and median imputation of the numeric columns. -/
def encode_features (F : Frame) : List EncCol :=
  (F.feats.filter (fun c => c.isNumeric)).map
      (fun c => (c.name, imputeMedian c.cellNums))
    ++ (F.feats.filter (fun c => ¬ c.isNumeric)).flatMap dummiesFor

/-- The target vector passed to `model.fit` in `phase2_shap` (line 353):
`y = df[target].fillna(0).values` — one entry per run, missing targets
replaced by `0.0`. -/
def phase2_target (F : Frame) : List ℚ := F.target.map fun t => t.getD 0

/-!
## Parameter-Space Inferencer (`_infer_param_space`, lines 478-494)

```python
series = df[col].dropna()
if len(series) == 0: continue
is_cat = not pd.api.types.is_numeric_dtype(series) or series.nunique() <= 5
if is_cat:
    cats = sorted([str(v) for v in series.unique()])
    space[col] = ("categorical", cats)
elif (series == series.round().values).all() and series.nunique() <= 30:
    lo, hi = int(series.min()), int(series.max())
    space[col] = ("int", lo, hi) if lo < hi else ("categorical", [str(lo)])
else:
    lo, hi = float(series.min()), float(series.max())
    space[col] = ("float", lo, hi) if lo < hi else ("categorical", [str(lo)])
```
-/

/-- A searchable parameter domain. -/
inductive Domain where
  | categorical (choices : List String)
  | intRange (lo hi : ℤ)
  | floatRange (lo hi : ℚ)
deriving DecidableEq, Repr

/-- Domain inference for one column; `none` models the `continue` on a
column with no present value. -/
def inferDomainCol (c : Col) : Option Domain :=
  if c.presentVals.length = 0 then none
  else if ¬ c.isNumeric ∨ c.nuniq ≤ 5 then
    some (.categorical (sortedStrs ((firstUniques c.presentVals).map PyVal.pyStr)))
  else if c.nums.all isWhole ∧ c.nuniq ≤ 30 then
    let lo : ℤ := (qListMin c.nums).num
    let hi : ℤ := (qListMax c.nums).num
    some (if lo < hi then .intRange lo hi else .categorical [toString lo])
  else
    let lo := qListMin c.nums
    let hi := qListMax c.nums
    some (if lo < hi then .floatRange lo hi else .categorical [pyFloatStr lo])

/-- Model of `_infer_param_space`: the domain of every feature column that has at
least one observed value. -/
def infer_param_space (F : Frame) : List (String × Domain) :=
  F.feats.filterMap fun c => (inferDomainCol c).map fun d => (c.name, d)

/-!
## Causal Estimator, phase gate and treatment selection
(`phase4_dowhy`, lines 713-815)

The phase first declines when `len(df) < 6` (line 730) — note this counts
all runs, before `df_dw = df[...].dropna(subset=[target])` (line 791) drops
the runs with a missing target.  Automatic treatment selection (lines
747-788) then tries: (1) the first feature whose present values take
exactly two distinct values; (2) else the category of a categorical
feature whose group mean deviates most from the overall target mean,
among groups of at least two runs with a present target, the running best
starting at `-999.0`; (3) else the numeric varying feature with the
largest standard deviation (equivalently, with a stable sort, the first
feature of maximal variance, as `std = sqrt ∘ var` is monotone).
-/

/-- The `len(df) < 6` precondition of `phase4_dowhy` (line 730): the phase
declines with a reason and returns before any estimation. -/
def phase4_gate (F : Frame) : Except String Unit :=
  if F.nRows < 6 then
    .error "kausale Analyse erfordert mindestens 6 Läufe"
  else .ok ()

/-- The target values that are present (`df[target].dropna()`). -/
def Frame.validTargets (F : Frame) : List ℚ := F.target.filterMap id

/-- Model of `df[target].dropna().mean()`. -/
def Frame.overallMean (F : Frame) : ℚ := qMean F.validTargets

/-- Model of `df.loc[df[feat] == val, target].dropna()`: the present target values of
the runs whose `feat` cell equals `val` (a `NaN` cell never equals `val`). -/
def Frame.grpTargets (F : Frame) (c : Col) (v : PyVal) : List ℚ :=
  (c.vals.zip F.target).filterMap fun p => if p.1 = some v then p.2 else none

/-- The deviation of a category's mean target from the overall mean
(`delta = grp.mean() - overall_mean`). -/
def Frame.deltaOf (F : Frame) (c : Col) (v : PyVal) : ℚ :=
  qMean (F.grpTargets c v) - F.overallMean

/-- Model of `binary_feats` (line 749): features observed with exactly two distinct
values. -/
def Frame.binaryFeats (F : Frame) : List Col :=
  F.feats.filter fun c => c.nuniq = 2

/-- Model of `cat_feats` (lines 756-759): non-numeric features with at least two
distinct present values. -/
def Frame.catFeats (F : Frame) : List Col :=
  F.feats.filter fun c => ¬ c.isNumeric ∧ 2 ≤ c.nuniq

/-- Model of `num_varying` before sorting (lines 779-781): numeric features with
more than one distinct present value. -/
def Frame.numVaryingFeats (F : Frame) : List Col :=
  F.feats.filter fun c => c.isNumeric ∧ 1 < c.nuniq

/-- The `(feat, val)` pairs scanned by the nested loop of lines 763-770,
in loop order. -/
def Frame.catPairs (F : Frame) : List (Col × PyVal) :=
  F.catFeats.flatMap fun c => (firstUniques c.presentVals).map fun v => (c, v)

/-- One step of the `best_feat, best_cat, best_delta` loop of lines
762-770: take `x` as the new best exactly when it passes `cond` and its
score strictly exceeds the running best. -/
def argmaxStep (f : α → ℚ) (cond : α → Bool) (acc : Option α × ℚ) (x : α) :
    Option α × ℚ :=
  if cond x ∧ acc.2 < f x then (some x, f x) else acc

/-- A left fold keeping the first element that strictly raises the running
maximum of `f` above the initial threshold `thr`, among elements passing
`cond` — the loop shape of lines 762-770. -/
def argmaxAbove (f : α → ℚ) (cond : α → Bool) (thr : ℚ) (l : List α) :
    Option α × ℚ :=
  l.foldl (argmaxStep f cond) (none, thr)

/-- The winning `(feat, val)` pair of the categorical scan, if any: groups
need at least two valid runs and a delta strictly above the running best
(initially `-999.0`). -/
def Frame.bestCatPair (F : Frame) : Option (Col × PyVal) :=
  (argmaxAbove (fun p => F.deltaOf p.1 p.2)
    (fun p => 2 ≤ (F.grpTargets p.1 p.2).length) (-999) F.catPairs).1

/-- First element of `l` attaining the maximal value of `f`: the head of a
stable descending sort by `f`, as in line 779's
`sorted(..., key=..., reverse=True)[0]`. -/
def firstMaxBy (f : α → ℚ) : List α → Option α
  | [] => none
  | c :: l => some (l.foldl (fun b d => if f b < f d then d else b) c)

/-- The outcome of automatic treatment selection: which feature was picked
and by which of the three priority rules. -/
inductive TreatPick where
  | binaryFirst (c : Col)
  | catBest (c : Col) (pos : PyVal)
  | numHighVar (c : Col)
deriving DecidableEq, Repr

/-- Automatic treatment selection (lines 747-788); `none` models the
"Kein geeignetes Treatment-Feature gefunden" decline. -/
def autoTreatment (F : Frame) : Option TreatPick :=
  match F.binaryFeats with
  | c :: _ => some (.binaryFirst c)
  | [] =>
    match F.bestCatPair with
    | some p => some (.catBest p.1 p.2)
    | none =>
      match firstMaxBy (fun c => qVar c.nums) F.numVaryingFeats with
      | some c => some (.numHighVar c)
      | none => none

/-- Binarization of the auto-selected categorical treatment (line 806):
`(df_dw[col] == pos).astype(int)` — `1` exactly for the winning category,
`0` for every other value and for a missing cell. -/
def catIndicator (c : Col) (pos : PyVal) : List ℚ :=
  c.vals.map fun w => if w = some pos then 1 else 0

/-- Median binarization of a numeric treatment column (lines 796-798):
`(df_dw[col] > median).astype(int)`, i.e. `1` exactly when strictly above
the median (a `NaN` cell compares `False`, hence `0`). -/
def binarizeAtMedian (c : Col) : List ℚ :=
  let m := (qMedian c.nums).getD 0
  c.cellNums.map fun v => match v with
    | some q => if m < q then 1 else 0
    | none => 0

/-!
## Candidate Recommender (`_suggest_next`, lines 539-618)

The sampler draws raw candidates (external Optuna code — the model
quantifies over an arbitrary drawn batch) and the source then
  * filters out every candidate whose parameter-by-parameter string key
    equals a historical row's key (lines 548-551, 573-575);
  * on the surrogate path scores, sorts descending (stable), deduplicates
    by key and returns the first `n` (lines 582-606);
  * on the fallback path walks the study's trials by descending value and
    returns the first `n` whose key is not historical (lines 609-618).
-/

/-- A parameter assignment as the sampler produces it: a Python dict from
parameter name to value. -/
abbrev Cand := List (String × PyVal)

/-- Model of `p.get(c)`: dictionary lookup. -/
def candGet (p : Cand) (c : String) : Option PyVal :=
  (p.find? fun kv => kv.1 = c).map fun kv => kv.2

/-- Model of `tuple(str(p.get(c, "")) for c in feature_cols)`: the string key of a
candidate. -/
def keyOfCand (cols : List String) (p : Cand) : List String :=
  cols.map fun c => match candGet p c with
    | some v => v.pyStr
    | none => ""

/-- Model of `tuple(str(row.get(c, "")) for c in feature_cols)` for row `i` of the
dataframe: a missing cell prints as `"nan"`. -/
def Frame.rowKey (F : Frame) (i : ℕ) : List String :=
  F.feats.map fun c => match c.vals.getD i none with
    | some v => v.pyStr
    | none => "nan"

/-- Model of `existing_keys` (lines 548-551). -/
def existingKeys (F : Frame) : List (List String) :=
  (List.range F.nRows).map F.rowKey

/-- The feature-column labels. -/
def featNames (F : Frame) : List String := F.feats.map Col.name

/-- Deduplication by key, keeping the first occurrence (lines 599-605). -/
def dedupByKey (cols : List String) :
    List (Cand × ℚ) → List (List String) → List (Cand × ℚ)
  | [], _ => []
  | t :: rest, seen =>
    let k := keyOfCand cols t.1
    if k ∈ seen then dedupByKey cols rest seen
    else t :: dedupByKey cols rest (k :: seen)

/-- The surrogate-scored path of `_suggest_next` (lines 561-606): `cands`
is the raw batch drawn from the sampler and `score` the surrogate's
prediction (external library calls, passed as oracles). -/
def suggest_next_scored (F : Frame) (cands : List Cand) (score : Cand → ℚ)
    (n : ℕ) : List (Cand × ℚ) :=
  let cols := featNames F
  let fresh := cands.filter fun p => ¬ keyOfCand cols p ∈ existingKeys F
  let scored := fresh.map fun p => (p, score p)
  (dedupByKey cols (stableSort (fun a b => decide (b.2 < a.2)) scored) []).take n

/-- The no-surrogate fallback path of `_suggest_next` (lines 609-618):
walk the study's trials by descending value (`t.value or 0`), skip valueless
trials, keep the first `n` whose key is not historical. -/
def suggest_next_fallback (F : Frame) (trials : List (Cand × Option ℚ))
    (n : ℕ) : List (Cand × ℚ) :=
  let cols := featNames F
  let sortedT := stableSort (fun a b => decide (b.2.getD 0 < a.2.getD 0)) trials
  (((sortedT.filterMap fun t => match t.2 with
      | some v => some (t.1, v)
      | none => none).filter
    fun t => ¬ keyOfCand cols t.1 ∈ existingKeys F).take n)

/-!
## OLS effect inference (`phase4_dowhy`, lines 859-871)

```python
n, k = len(y_ate), X_ate.shape[1]
mse = np.dot(residuals, residuals) / max(n - k - 1, 1)
try:
    cov = mse * np.linalg.inv(X_np.T @ X_np)
    se = float(np.sqrt(np.diag(cov)[t_idx]))
    t_stat = ate / se if se > 0 else 0.0
    p_val = float(2 * scipy_stats.t.sf(abs(t_stat), df=n - k - 1))
except np.linalg.LinAlgError:
    se, p_val = 0.0, 1.0
```

`np.linalg.inv` raises `LinAlgError` exactly on a singular matrix — in the
exact model, when `det (XᵀX) = 0`; otherwise the inverse is
`det⁻¹ • adjugate`.  The square root and the Student-t survival function
are external numerics, passed in as oracles `sqrtq` and `tsf`; predictions
and the fitted coefficient come from `sklearn.LinearRegression`, likewise
passed in (`ypred`, `ate`).  Since `sqrt` is strictly positive on positive
arguments, `se > 0` is faithfully mirrored by `sqrtq` applied to the
variance whenever the oracle respects the sign (the claims below do not
depend on it).
-/

/-- Model of `mse = np.dot(residuals, residuals) / max(n - k - 1, 1)` (line 863). -/
def olsMse (n k : ℕ) (ypred y : Fin n → ℚ) : ℚ :=
  (∑ i, (y i - ypred i) ^ 2) / ((max ((n : ℤ) - k - 1) 1 : ℤ) : ℚ)

/-- Model of `se = sqrt(diag(mse * inv(X.T @ X))[t_idx])` (lines 866-867), in the
nonsingular case; `inv` is `det⁻¹ • adjugate`. -/
def olsSe (sqrtq : ℚ → ℚ) {n k : ℕ} (X : Matrix (Fin n) (Fin k) ℚ)
    (ypred y : Fin n → ℚ) (tIdx : Fin k) : ℚ :=
  sqrtq ((olsMse n k ypred y •
    (((X.transpose * X).det)⁻¹ • (X.transpose * X).adjugate)) tIdx tIdx)

/-- Model of `t_stat = ate / se if se > 0 else 0.0` (line 868). -/
def olsTstat (sqrtq : ℚ → ℚ) {n k : ℕ} (X : Matrix (Fin n) (Fin k) ℚ)
    (ypred y : Fin n → ℚ) (ate : ℚ) (tIdx : Fin k) : ℚ :=
  if 0 < olsSe sqrtq X ypred y tIdx then ate / olsSe sqrtq X ypred y tIdx
  else 0

/-- Standard error and p-value of the treatment coefficient as computed by
lines 859-871; the `LinAlgError` fallback yields `(0, 1)`. -/
def olsInference (sqrtq : ℚ → ℚ) (tsf : ℚ → ℤ → ℚ) {n k : ℕ}
    (X : Matrix (Fin n) (Fin k) ℚ) (ypred y : Fin n → ℚ) (ate : ℚ)
    (tIdx : Fin k) : ℚ × ℚ :=
  if (X.transpose * X).det = 0 then (0, 1)
  else
    (olsSe sqrtq X ypred y tIdx,
     2 * tsf |olsTstat sqrtq X ypred y ate tIdx| ((n : ℤ) - k - 1))

/-!
## Attribution Engine

Modelled from the spec: the Shapley computation itself lives in the
external `shap` library (`shap.TreeExplainer(model).shap_values(X)`, lines
371-372); only its call site is in `src/`.  Following spec §4.3 and §3
(AttributionResult), the model is the exact Shapley-value decomposition of
a tree-ensemble surrogate: the value of a coalition `S` at a sample `x` is
the expected ensemble prediction when the features in `S` are fixed to
`x`'s values and the rest are drawn from the training (background) data,
and a feature's contribution is its average marginal contribution over all
feature orderings.  The baseline is the average prediction over the
training set.
-/

/-- An encoded sample: feature index to value. -/
abbrev FVec := ℕ → ℚ

/-- A regression tree of the surrogate ensemble. -/
inductive DTree where
  | leaf (v : ℚ)
  | node (f : ℕ) (thr : ℚ) (l r : DTree)

/-- Prediction of a single tree (left on `value ≤ threshold`). -/
def DTree.eval : DTree → FVec → ℚ
  | .leaf v, _ => v
  | .node f thr l r, x => if x f ≤ thr then l.eval x else r.eval x

/-- The features a tree splits on. -/
def DTree.featSet : DTree → Finset ℕ
  | .leaf _ => ∅
  | .node f _ l r => insert f (l.featSet ∪ r.featSet)

/-- The surrogate ensemble. -/
abbrev Forest := List DTree

/-- Ensemble prediction: the average of the trees' predictions. -/
def forestPredict (Fo : Forest) (x : FVec) : ℚ :=
  (Fo.map fun t => t.eval x).sum / Fo.length

/-- The hybrid sample taking `x`'s features on `S` and `z`'s elsewhere. -/
def blendVec (x z : FVec) (S : Finset ℕ) : FVec :=
  fun f => if f ∈ S then x f else z f

/-- Modelled from the spec: the value of coalition `S` at sample `x` — the
average ensemble prediction over the background data `B` with the features
in `S` fixed to `x`. -/
def coalitionValue (Fo : Forest) (B : List FVec) (x : FVec) (S : Finset ℕ) :
    ℚ :=
  (B.map fun z => forestPredict Fo (blendVec x z S)).sum / B.length

/-- The baseline: the average prediction over the training set. -/
def shapBaseline (Fo : Forest) (B : List FVec) : ℚ :=
  (B.map (forestPredict Fo)).sum / B.length

/-- All insertions of `a` into a list. -/
def insertionsAt (a : α) : List α → List (List α)
  | [] => [[a]]
  | b :: l => (a :: b :: l) :: (insertionsAt a l).map (b :: ·)

/-- All permutations of a list (every element is a permutation; used to
average marginal contributions over feature orderings). -/
def allPerms : List α → List (List α)
  | [] => [[]]
  | a :: l => (allPerms l).flatMap (insertionsAt a)

/-- The coalition preceding `i` in the ordering `p`. -/
def prefixBefore [DecidableEq α] (p : List α) (i : α) : List α :=
  p.takeWhile fun a => a ≠ i

/-- Marginal contribution of feature `i` in the ordering `p`. -/
def marginalContrib (v : Finset ℕ → ℚ) (p : List ℕ) (i : ℕ) : ℚ :=
  v (insert i (prefixBefore p i).toFinset) - v (prefixBefore p i).toFinset

/-- Modelled from the spec: the Shapley value of feature `i` for the game
`v` over the feature list `L` — the average marginal contribution of `i`
over all orderings of `L`. -/
def shapleyValue (v : Finset ℕ → ℚ) (L : List ℕ) (i : ℕ) : ℚ :=
  ((allPerms L).map fun p => marginalContrib v p i).sum / (allPerms L).length

/-- Modelled from the spec: the attribution engine's per-feature, per-run
contribution for sample `x` over feature list `L`. -/
def shapContribution (Fo : Forest) (B : List FVec) (L : List ℕ) (x : FVec)
    (i : ℕ) : ℚ :=
  shapleyValue (coalitionValue Fo B x) L i

/-!
## Aggregate importance ranking (`phase2_shap`, lines 383-388)

```python
mean_abs = np.abs(shap_values).mean(axis=0)
imp_df = (pd.DataFrame({"feature": X.columns, "importance": mean_abs})
          .sort_values("importance", ascending=True).reset_index(drop=True))
```

and the ranking is read off most-important-first (`imp_df.iloc[::-1]`,
line 400; `imp_df.tail(...)` for the top features, line 411).  The model
sorts ascending with a stable sort (numpy's quicksort falls back to a
stable insertion sort on the small arrays at hand) and reverses.
-/

/-- Model of `np.abs(shap_values).mean(axis=0)`: per-feature mean absolute
contribution over the runs. -/
def meanAbsPerFeature (nFeats : ℕ) (rows : List (List ℚ)) : List ℚ :=
  (List.range nFeats).map fun j =>
    (rows.map fun r => |r.getD j 0|).sum / rows.length

/-- The aggregate feature ranking, most important first: pair the feature
names with their mean absolute contribution, sort ascending by importance
(stable), read in reverse. -/
def importanceRanking (names : List String) (rows : List (List ℚ)) :
    List (String × ℚ) :=
  (stableSort (fun a b => decide (a.2 < b.2))
    (names.zip (meanAbsPerFeature names.length rows))).reverse

/-- The `(X, y)` pair `phase2_shap` passes to `model.fit` (lines 352-360):
the encoded feature table and the zero-imputed target vector. -/
def phase2_training_data (F : Frame) : List EncCol × List ℚ :=
  (encode_features F, phase2_target F)

/-!
## Helper lemmas
-/

theorem mem_stableInsert {lt : α → α → Bool} {a x : α} {l : List α} :
    x ∈ stableInsert lt a l ↔ x = a ∨ x ∈ l := by
  induction l with
  | nil => simp [stableInsert]
  | cons b t ih =>
    by_cases h : lt b a
    · simp [stableInsert, h, ih]
      tauto
    · simp [stableInsert, h]

theorem mem_stableSort {lt : α → α → Bool} {x : α} {l : List α} :
    x ∈ stableSort lt l ↔ x ∈ l := by
  induction l with
  | nil => simp [stableSort]
  | cons b t ih => simp [stableSort, mem_stableInsert, ih]

theorem dedupByKey_subset {cols : List String} {l : List (Cand × ℚ)}
    {seen : List (List String)} {x : Cand × ℚ}
    (h : x ∈ dedupByKey cols l seen) : x ∈ l := by
  induction l generalizing seen with
  | nil => simp [dedupByKey] at h
  | cons t rest ih =>
    by_cases hk : keyOfCand cols t.1 ∈ seen
    · simp only [dedupByKey, if_pos hk] at h
      exact List.mem_cons_of_mem _ (ih h)
    · simp only [dedupByKey, if_neg hk, List.mem_cons] at h
      rcases h with h | h
      · exact h ▸ List.mem_cons_self t rest
      · exact List.mem_cons_of_mem _ (ih h)

/-!
## Claim C2 — the phase-4 precondition
-/

/-- The number of runs with a present target metric. -/
def Frame.validCount (F : Frame) : ℕ := F.validTargets.length

/-- C2, counterexample: a collection of six runs of which only one has a
present target — fewer than 6 runs with a non-missing target — yet
`phase4_dowhy`'s gate passes and the phase proceeds to estimation, so the
claim "fewer than 6 runs with a non-missing target returns a declined
outcome" is false of the code. -/
def c2Frame : Frame :=
  { feats := [{ name := "param_query_mode",
                vals := [some (.strV "a"), some (.strV "b"), some (.strV "a"),
                         some (.strV "b"), some (.strV "a"), some (.strV "b")] }],
    target := [some (1/2), none, none, none, none, none] }

theorem phase4_gate_valid_cex :
    c2Frame.validCount < 6 ∧ phase4_gate c2Frame = Except.ok () := by
  constructor
  · decide
  · rfl

/-- C2 (amended): the causal estimator requires at least 6 runs in total,
counting runs whose target metric is missing: on fewer than 6 runs it
returns a declined outcome with a reason (it never throws), and on at
least 6 runs the row-count precondition passes and it proceeds — there is
no check on the number of runs with a non-missing target. -/
theorem phase4_gate_spec (F : Frame) :
    (F.nRows < 6 →
      phase4_gate F = Except.error "kausale Analyse erfordert mindestens 6 Läufe") ∧
    (6 ≤ F.nRows → phase4_gate F = Except.ok ()) := by
  constructor
  · intro h
    simp [phase4_gate, h]
  · intro h
    simp [phase4_gate, Nat.not_lt.mpr h]

theorem phase4_gate_spec_witness :
    (Frame.nRows { feats := [], target := [] } < 6 ∧
      phase4_gate { feats := [], target := [] } =
        Except.error "kausale Analyse erfordert mindestens 6 Läufe") ∧
    (6 ≤ c2Frame.nRows ∧ phase4_gate c2Frame = Except.ok ()) :=
  ⟨⟨by decide, (phase4_gate_spec _).1 (by decide)⟩,
   ⟨by decide, (phase4_gate_spec c2Frame).2 (by decide)⟩⟩

/-!
## Claim C3 — recommended candidates are never historical configurations
-/

/-- C3: every candidate returned by `_suggest_next` — on the
surrogate-scored path for an arbitrary sampled batch and scoring oracle,
and on the no-surrogate fallback path for an arbitrary trial list — has a
parameter-by-parameter string key different from the key of every
historical run. -/
theorem suggest_next_never_historical (F : Frame) (cands : List Cand)
    (score : Cand → ℚ) (trials : List (Cand × Option ℚ)) (n : ℕ) :
    (∀ c ∈ suggest_next_scored F cands score n,
      ∀ i < F.nRows, keyOfCand (featNames F) c.1 ≠ F.rowKey i) ∧
    (∀ c ∈ suggest_next_fallback F trials n,
      ∀ i < F.nRows, keyOfCand (featNames F) c.1 ≠ F.rowKey i) := by
  have hmem : ∀ (p : Cand), ¬ keyOfCand (featNames F) p ∈ existingKeys F →
      ∀ i < F.nRows, keyOfCand (featNames F) p ≠ F.rowKey i := by
    intro p hp i hi hEq
    exact hp (hEq ▸ List.mem_map_of_mem F.rowKey (List.mem_range.mpr hi))
  constructor
  · intro c hc
    have h1 : c ∈ dedupByKey (featNames F)
        (stableSort (fun a b => decide (b.2 < a.2))
          ((cands.filter fun p =>
            ¬ keyOfCand (featNames F) p ∈ existingKeys F).map
              fun p => (p, score p))) [] :=
      List.take_subset n _ hc
    have h2 := dedupByKey_subset h1
    have h3 := mem_stableSort.mp h2
    rcases List.mem_map.mp h3 with ⟨p, hp, hpc⟩
    have h4 := List.mem_filter.mp hp
    have h5 : ¬ keyOfCand (featNames F) p ∈ existingKeys F := by
      simpa using h4.2
    exact hpc ▸ hmem p h5
  · intro c hc
    have h1 := List.take_subset n _ hc
    have h2 := (List.mem_filter.mp h1).2
    have h5 : ¬ keyOfCand (featNames F) c.1 ∈ existingKeys F := by
      simpa using h2
    exact hmem c.1 h5

/-- A small concrete history for instantiating the recommender theorems. -/
def c3Frame : Frame :=
  { feats := [{ name := "param_mode",
                vals := [some (.strV "a"), some (.strV "b")] }],
    target := [some 1, some 0] }

theorem suggest_next_never_historical_witness :
    (([("param_mode", PyVal.strV "c")], (1 : ℚ)) ∈
        suggest_next_scored c3Frame [[("param_mode", PyVal.strV "c")]]
          (fun _ => 1) 1) ∧
    keyOfCand (featNames c3Frame) [("param_mode", PyVal.strV "c")] ≠
      c3Frame.rowKey 0 :=
  ⟨by decide,
   (suggest_next_never_historical c3Frame [[("param_mode", PyVal.strV "c")]]
      (fun _ => 1) [] 1).1 ([("param_mode", PyVal.strV "c")], 1) (by decide)
      0 (by decide)⟩

/-!
## Claim C6 — OLS singular fallback and t-test degrees of freedom
-/

/-- C6: in the OLS effect estimation, a singular `XᵀX` yields standard
error `0` and p-value `1` instead of a failure; otherwise the p-value is
the two-sided t-tail `2 · sf(|t|)` at `rows − columns − 1` degrees of
freedom, for every square-root and t-survival oracle, design matrix,
predictions and fitted coefficient. -/
theorem olsInference_spec (sqrtq : ℚ → ℚ) (tsf : ℚ → ℤ → ℚ) {n k : ℕ}
    (X : Matrix (Fin n) (Fin k) ℚ) (ypred y : Fin n → ℚ) (ate : ℚ)
    (tIdx : Fin k) :
    ((X.transpose * X).det = 0 →
      olsInference sqrtq tsf X ypred y ate tIdx = (0, 1)) ∧
    ((X.transpose * X).det ≠ 0 →
      ∃ tst : ℚ, (olsInference sqrtq tsf X ypred y ate tIdx).2 =
        2 * tsf |tst| ((n : ℤ) - k - 1)) := by
  constructor
  · intro h
    simp [olsInference, h]
  · intro h
    exact ⟨olsTstat sqrtq X ypred y ate tIdx, by rw [olsInference, if_neg h]⟩

theorem olsInference_spec_witness :
    (((Matrix.of ![![(0 : ℚ)]]).transpose * Matrix.of ![![(0 : ℚ)]]).det = 0 ∧
      olsInference (fun q => q) (fun _ _ => 1) (Matrix.of ![![(0 : ℚ)]])
        (fun _ => 0) (fun _ => 0) 1 0 = (0, 1)) ∧
    (((Matrix.of ![![(2 : ℚ)]]).transpose * Matrix.of ![![(2 : ℚ)]]).det ≠ 0 ∧
      ∃ tst : ℚ, (olsInference (fun q => q) (fun _ _ => 1)
          (Matrix.of ![![(2 : ℚ)]]) (fun _ => 0) (fun _ => 0) 1 0).2 =
        2 * ((fun (_ : ℚ) (_ : ℤ) => (1 : ℚ)) |tst| (((1 : ℕ) : ℤ) - (1 : ℕ) - 1))) := by
  have h0 : ((Matrix.of ![![(0 : ℚ)]]).transpose * Matrix.of ![![(0 : ℚ)]]).det = 0 := by
    simp [Matrix.det_fin_one, Matrix.mul_apply]
  have h2 : ((Matrix.of ![![(2 : ℚ)]]).transpose * Matrix.of ![![(2 : ℚ)]]).det ≠ 0 := by
    simp [Matrix.det_fin_one, Matrix.mul_apply]
  exact ⟨⟨h0, (olsInference_spec (fun q => q) (fun _ _ => 1) _ _ _ 1 0).1 h0⟩,
         ⟨h2, (olsInference_spec (fun q => q) (fun _ _ => 1) _ _ _ 1 0).2 h2⟩⟩

/-!
## Claims C9 and C10 — row retention and missing-value behaviour
-/

/-- C9: surrogate training keeps every run: the target vector handed to
`model.fit` has one entry per run, a missing target becomes exactly `0.0`
and a present target is passed unchanged; likewise every encoded feature
column keeps one cell per run (no row is excluded). -/
theorem phase2_training_keeps_rows (F : Frame)
    (wf : ∀ c ∈ F.feats, c.vals.length = F.nRows) :
    (phase2_training_data F).2.length = F.nRows ∧
    (∀ i : ℕ, ((phase2_training_data F).2)[i]? =
      (F.target[i]?).map fun t => t.getD 0) ∧
    (∀ col ∈ (phase2_training_data F).1, col.2.length = F.nRows) := by
  refine ⟨by simp [phase2_training_data, phase2_target, Frame.nRows], ?_, ?_⟩
  · intro i
    simp [phase2_training_data, phase2_target, List.getElem?_map]
  · intro col hcol
    simp only [phase2_training_data] at hcol
    rcases List.mem_append.mp hcol with h | h
    · rcases List.mem_map.mp h with ⟨c, hc, hcc⟩
      have hlen := wf c (List.mem_of_mem_filter hc)
      subst hcc
      simp [imputeMedian, Col.cellNums, hlen]
    · rcases List.mem_flatMap.mp h with ⟨c, hc, hcol2⟩
      rcases List.mem_map.mp hcol2 with ⟨v, _, hvc⟩
      have hlen := wf c (List.mem_of_mem_filter hc)
      subst hvc
      simpa using hlen

theorem phase2_training_keeps_rows_witness :
    (∀ c ∈ c3Frame.feats, c.vals.length = c3Frame.nRows) ∧
    (phase2_training_data c3Frame).2.length = c3Frame.nRows :=
  ⟨by decide, (phase2_training_keeps_rows c3Frame (by decide)).1⟩

/-- C10: a numeric feature column whose value is missing in every run
survives encoding as an entirely missing column — the median of an
all-missing column is undefined, `fillna` leaves every cell `NaN` — so the
encoded feature table is not guaranteed to be free of missing values. -/
theorem encode_features_all_missing (F : Frame) (c : Col) (hc : c ∈ F.feats)
    (hnum : c.isNumeric = true) (hmiss : ∀ v ∈ c.vals, v = none) :
    (c.name, c.vals.map fun _ => (none : Option ℚ)) ∈ encode_features F := by
  have hcells : c.cellNums = c.vals.map fun _ => none := by
    unfold Col.cellNums
    exact List.map_congr_left fun v hv => by rw [hmiss v hv]
  have himp : imputeMedian (c.vals.map fun _ => (none : Option ℚ)) =
      c.vals.map fun _ => (none : Option ℚ) := by
    unfold imputeMedian
    have hfm : (c.vals.map fun _ => (none : Option ℚ)).filterMap id = [] := by
      simp [List.filterMap_map]
    rw [hfm]
    simp [qMedian]
  have : (c.name, imputeMedian c.cellNums) ∈ encode_features F := by
    unfold encode_features
    refine List.mem_append_left _ ?_
    exact List.mem_map_of_mem _ (List.mem_filter.mpr ⟨hc, by simpa using hnum⟩)
  rwa [hcells, himp] at this

/-- A frame with a numeric parameter column that is missing in every run. -/
def c10Frame : Frame :=
  { feats := [{ name := "param_top_k", vals := [none, none] },
              { name := "param_mode",
                vals := [some (.strV "a"), some (.strV "b")] }],
    target := [some 1, some 0] }

theorem encode_features_all_missing_witness :
    ({ name := "param_top_k", vals := [none, none] } : Col) ∈ c10Frame.feats ∧
    ("param_top_k", [(none : Option ℚ), none]) ∈ encode_features c10Frame :=
  ⟨by decide,
   encode_features_all_missing c10Frame
     { name := "param_top_k", vals := [none, none] }
     (by decide) (by decide) (by decide)⟩

/-!
## Order and permutation properties of the stable sort
-/

theorem perm_stableInsert (lt : α → α → Bool) (a : α) (l : List α) :
    List.Perm (stableInsert lt a l) (a :: l) := by
  induction l with
  | nil => simp [stableInsert]
  | cons b t ih =>
    by_cases h : lt b a
    · simp only [stableInsert, if_pos h]
      exact (ih.cons b).trans (List.Perm.swap a b t)
    · simp [stableInsert, h]

theorem perm_stableSort (lt : α → α → Bool) (l : List α) :
    List.Perm (stableSort lt l) l := by
  induction l with
  | nil => simp [stableSort]
  | cons a t ih =>
    exact (perm_stableInsert lt a (stableSort lt t)).trans (ih.cons a)

theorem pairwise_stableInsert (lt : α → α → Bool)
    (hasym : ∀ x y, lt x y = true → lt y x = false)
    (htrans : ∀ x y z, lt x y = false → lt y z = false → lt x z = false)
    (a : α) (l : List α) (hl : l.Pairwise fun x y => lt y x = false) :
    (stableInsert lt a l).Pairwise fun x y => lt y x = false := by
  induction l with
  | nil => simp [stableInsert]
  | cons b t ih =>
    rcases List.pairwise_cons.mp hl with ⟨hbt, htp⟩
    by_cases h : lt b a
    · simp only [stableInsert, if_pos h]
      refine List.pairwise_cons.mpr ⟨?_, ih htp⟩
      intro y hy
      rcases mem_stableInsert.mp hy with rfl | hyt
      · exact hasym b y h
      · exact hbt y hyt
    · simp only [stableInsert, if_neg h]
      refine List.pairwise_cons.mpr ⟨?_, hl⟩
      intro y hy
      rcases List.mem_cons.mp hy with rfl | hyt
      · exact Bool.eq_false_iff.mpr h
      · exact htrans y b a (hbt y hyt) (Bool.eq_false_iff.mpr h)

theorem pairwise_stableSort (lt : α → α → Bool)
    (hasym : ∀ x y, lt x y = true → lt y x = false)
    (htrans : ∀ x y z, lt x y = false → lt y z = false → lt x z = false)
    (l : List α) :
    (stableSort lt l).Pairwise fun x y => lt y x = false := by
  induction l with
  | nil => simp [stableSort]
  | cons a t ih => exact pairwise_stableInsert lt hasym htrans a _ ih

theorem lexCharLt_asymm :
    ∀ s t : List Char, lexCharLt s t = true → lexCharLt t s = false := by
  intro s
  induction s with
  | nil => intro t h; cases t <;> simp_all [lexCharLt]
  | cons a s ih =>
    intro t h
    cases t with
    | nil => simp [lexCharLt] at h
    | cons b t =>
      simp only [lexCharLt] at h ⊢
      by_cases h1 : a.toNat < b.toNat
      · have h2 : ¬ b.toNat < a.toNat := Nat.lt_asymm h1
        simp [h1, h2]
      · by_cases h2 : b.toNat < a.toNat
        · simp [h1, h2] at h
        · simp only [if_neg h1, if_neg h2] at h
          simp [h1, h2, ih t h]

theorem lexCharLt_negtrans :
    ∀ s t u : List Char, lexCharLt s t = false → lexCharLt t u = false →
      lexCharLt s u = false := by
  intro s
  induction s with
  | nil =>
    intro t u h1 h2
    cases t with
    | nil => cases u <;> simp_all [lexCharLt]
    | cons b t => simp [lexCharLt] at h1
  | cons a s ih =>
    intro t u h1 h2
    cases t with
    | nil =>
      cases u with
      | nil => simp [lexCharLt]
      | cons c u => simp [lexCharLt] at h2
    | cons b t =>
      cases u with
      | nil => simp [lexCharLt]
      | cons c u =>
        simp only [lexCharLt] at h1 h2 ⊢
        by_cases hab : a.toNat < b.toNat
        · simp [hab] at h1
        · by_cases hbc : b.toNat < c.toNat
          · simp [hbc] at h2
          · by_cases hac : a.toNat < c.toNat
            · exfalso
              have hba : b.toNat ≤ a.toNat := Nat.le_of_not_lt hab
              have hcb : c.toNat ≤ b.toNat := Nat.le_of_not_lt hbc
              omega
            · by_cases hca : c.toNat < a.toNat
              · simp [hac, hca]
              · have hba : ¬ b.toNat < a.toNat := by omega
                have hcb : ¬ c.toNat < b.toNat := by omega
                simp only [if_neg hab, if_neg hba] at h1
                simp only [if_neg hbc, if_neg hcb] at h2
                simp [hac, hca, ih t u h1 h2]

theorem strLt_asymm (x y : String) (h : strLt x y = true) : strLt y x = false :=
  lexCharLt_asymm x.data y.data h

theorem strLt_negtrans (x y z : String) (h1 : strLt x y = false)
    (h2 : strLt y z = false) : strLt x z = false :=
  lexCharLt_negtrans x.data y.data z.data h1 h2

/-!
## Properties of `firstUniques`, `qListMin`, `qListMax`
-/

theorem mem_firstUniques [DecidableEq α] {x : α} {l : List α} :
    x ∈ firstUniques l ↔ x ∈ l := by
  induction l with
  | nil => simp [firstUniques]
  | cons a t ih =>
    by_cases hxa : x = a
    · subst hxa
      simp [firstUniques]
    · simp [firstUniques, List.mem_filter, hxa, ih]

theorem nodup_firstUniques [DecidableEq α] (l : List α) :
    (firstUniques l).Nodup := by
  induction l with
  | nil => simp [firstUniques]
  | cons a t ih =>
    refine List.Pairwise.cons ?_ (List.Nodup.filter _ ih)
    intro y hy
    have := (List.mem_filter.mp hy).2
    simp only [decide_eq_true_eq] at this
    exact fun hya => this (hya ▸ rfl)

theorem toFinset_firstUniques [DecidableEq α] (l : List α) :
    (firstUniques l).toFinset = l.toFinset := by
  ext x
  simp [List.mem_toFinset, mem_firstUniques]

theorem length_firstUniques [DecidableEq α] (l : List α) :
    (firstUniques l).length = l.toFinset.card := by
  rw [← toFinset_firstUniques, List.toFinset_card_of_nodup (nodup_firstUniques l)]

theorem foldl_min_le (l : List ℚ) :
    ∀ (a : ℚ), ∀ x ∈ a :: l, l.foldl min a ≤ x := by
  induction l with
  | nil =>
    intro a x hx
    simp_all
  | cons b t ih =>
    intro a x hx
    rw [List.foldl_cons]
    rcases List.mem_cons.mp hx with h1 | h1
    · exact le_trans (ih (min a b) _ (List.mem_cons_self _ _))
        (h1 ▸ min_le_left a b)
    · rcases List.mem_cons.mp h1 with h2 | h2
      · exact le_trans (ih (min a b) _ (List.mem_cons_self _ _))
          (h2 ▸ min_le_right a b)
      · exact ih (min a b) x (List.mem_cons_of_mem _ h2)

theorem foldl_min_mem (l : List ℚ) : ∀ a : ℚ, l.foldl min a ∈ a :: l := by
  induction l with
  | nil => simp
  | cons b t ih =>
    intro a
    rw [List.foldl_cons]
    rcases List.mem_cons.mp (ih (min a b)) with h1 | h1
    · rcases min_choice a b with hc | hc
      · rw [h1, hc]
        exact List.mem_cons_self _ _
      · rw [h1, hc]
        exact List.mem_cons_of_mem _ (List.mem_cons_self _ _)
    · exact List.mem_cons_of_mem _ (List.mem_cons_of_mem _ h1)

theorem foldl_max_ge (l : List ℚ) :
    ∀ (a : ℚ), ∀ x ∈ a :: l, x ≤ l.foldl max a := by
  induction l with
  | nil =>
    intro a x hx
    simp_all
  | cons b t ih =>
    intro a x hx
    rw [List.foldl_cons]
    rcases List.mem_cons.mp hx with h1 | h1
    · exact le_trans (h1 ▸ le_max_left a b)
        (ih (max a b) _ (List.mem_cons_self _ _))
    · rcases List.mem_cons.mp h1 with h2 | h2
      · exact le_trans (h2 ▸ le_max_right a b)
          (ih (max a b) _ (List.mem_cons_self _ _))
      · exact ih (max a b) x (List.mem_cons_of_mem _ h2)

theorem foldl_max_mem (l : List ℚ) : ∀ a : ℚ, l.foldl max a ∈ a :: l := by
  induction l with
  | nil => simp
  | cons b t ih =>
    intro a
    rw [List.foldl_cons]
    rcases List.mem_cons.mp (ih (max a b)) with h1 | h1
    · rcases max_choice a b with hc | hc
      · rw [h1, hc]
        exact List.mem_cons_self _ _
      · rw [h1, hc]
        exact List.mem_cons_of_mem _ (List.mem_cons_self _ _)
    · exact List.mem_cons_of_mem _ (List.mem_cons_of_mem _ h1)

theorem qListMin_isLeast (l : List ℚ) (hl : l ≠ []) :
    IsLeast {q | q ∈ l} (qListMin l) := by
  cases l with
  | nil => exact absurd rfl hl
  | cons a t =>
    exact ⟨foldl_min_mem t a, fun x hx => foldl_min_le t a x hx⟩

theorem qListMax_isGreatest (l : List ℚ) (hl : l ≠ []) :
    IsGreatest {q | q ∈ l} (qListMax l) := by
  cases l with
  | nil => exact absurd rfl hl
  | cons a t =>
    exact ⟨foldl_max_mem t a, fun x hx => foldl_max_ge t a x hx⟩

/-!
## Claim C5 — inferred parameter domains
-/

theorem list_toFinset_map [DecidableEq α] [DecidableEq β] (f : α → β)
    (l : List α) : (l.map f).toFinset = l.toFinset.image f := by
  ext x
  simp [List.mem_toFinset, List.mem_map, Finset.mem_image]

theorem presentVals_float (vals : List (Option PyVal))
    (h : ∀ v ∈ vals.filterMap id, ∃ q : ℚ, v = .floatV q) :
    vals.filterMap id =
      (vals.filterMap fun v => match v with
        | some (.floatV q) => some q
        | _ => none).map PyVal.floatV := by
  induction vals with
  | nil => simp
  | cons a t ih =>
    have hsub : ∀ v ∈ t.filterMap id, ∃ q : ℚ, v = .floatV q := by
      intro v hv
      refine h v ?_
      rcases List.mem_filterMap.mp hv with ⟨x, hx, hxe⟩
      exact List.mem_filterMap.mpr ⟨x, List.mem_cons_of_mem a hx, hxe⟩
    cases a with
    | none => simpa using ih hsub
    | some w =>
      rcases h w (List.mem_filterMap.mpr
        ⟨some w, List.mem_cons_self _ _, rfl⟩) with ⟨q, rfl⟩
      simpa using ih hsub

theorem col_presentVals_eq_nums (c : Col) (hnum : c.isNumeric = true)
    (hcells : ∀ v ∈ c.presentVals, ∀ z : ℤ, v ≠ .intV z) :
    c.presentVals = c.nums.map PyVal.floatV := by
  have hall : ∀ v ∈ c.presentVals,
      (match v with | PyVal.strV _ => false | _ => true) = true :=
    List.all_eq_true.mp hnum
  have hfv : ∀ v ∈ c.vals.filterMap id, ∃ q : ℚ, v = .floatV q := by
    intro v hv
    cases v with
    | floatV q => exact ⟨q, rfl⟩
    | intV z => exact absurd rfl (hcells _ hv z)
    | strV s =>
      have := hall _ hv
      simp at this
  have := presentVals_float c.vals hfv
  simpa [Col.presentVals, Col.nums] using this

theorem nums_min_lt_max (c : Col) (hne : c.nums ≠ [])
    (h2 : 1 < c.nums.toFinset.card) : qListMin c.nums < qListMax c.nums := by
  rcases Finset.one_lt_card.mp h2 with ⟨a, ha, b, hb, hab⟩
  have ha2 : a ∈ c.nums := List.mem_toFinset.mp ha
  have hb2 : b ∈ c.nums := List.mem_toFinset.mp hb
  have hle := (qListMin_isLeast c.nums hne).2
  have hge := (qListMax_isGreatest c.nums hne).2
  rcases lt_or_eq_of_le (le_trans (hle hb2) (hge hb2)) with h | h
  · exact h
  · exfalso
    apply hab
    have h3 : a = qListMin c.nums := le_antisymm (h ▸ hge ha2) (hle ha2)
    have h4 : b = qListMin c.nums := le_antisymm (h ▸ hge hb2) (hle hb2)
    rw [h3, h4]

/-- C5: for a parameter column with at least one observed value (its cells
being floats or strings, as `_extract_row` produces them), the inferred
domain is: categorical — the distinct observed values as strings, sorted
ascending — when the column is non-numeric or has at most 5 distinct
observed values; `integer(min, max)` of the observed values when it is
numeric with more than 5 distinct values, all of them whole, and at most
30 distinct; `real(min, max)` otherwise; and every emitted range is
nondegenerate (`min < max` follows from having more than 5 distinct
values, so the degenerate-range collapse to a single-choice categorical
can never fire). -/
theorem infer_param_space_spec (c : Col)
    (hobs : c.presentVals ≠ [])
    (hcells : ∀ v ∈ c.presentVals, ∀ z : ℤ, v ≠ .intV z) :
    ((c.isNumeric = false ∨ c.presentVals.toFinset.card ≤ 5) →
      ∃ ch : List String, inferDomainCol c = some (.categorical ch) ∧
        List.Perm ch ((firstUniques c.presentVals).map PyVal.pyStr) ∧
        ch.Pairwise fun a b => strLt b a = false) ∧
    (c.isNumeric = true → 5 < c.presentVals.toFinset.card →
      (∀ q ∈ c.nums, q.den = 1) → c.presentVals.toFinset.card ≤ 30 →
      ∃ lo hi : ℤ, inferDomainCol c = some (.intRange lo hi) ∧
        IsLeast {q : ℚ | q ∈ c.nums} (lo : ℚ) ∧
        IsGreatest {q : ℚ | q ∈ c.nums} (hi : ℚ) ∧ lo < hi) ∧
    (c.isNumeric = true → 5 < c.presentVals.toFinset.card →
      ((∃ q ∈ c.nums, q.den ≠ 1) ∨ 30 < c.presentVals.toFinset.card) →
      ∃ lo hi : ℚ, inferDomainCol c = some (.floatRange lo hi) ∧
        IsLeast {q : ℚ | q ∈ c.nums} lo ∧
        IsGreatest {q : ℚ | q ∈ c.nums} hi ∧ lo < hi) := by
  have hlen : ¬ c.presentVals.length = 0 := by
    simpa [List.length_eq_zero] using hobs
  have hcard : c.nuniq = c.presentVals.toFinset.card :=
    length_firstUniques c.presentVals
  refine ⟨?_, ?_, ?_⟩
  · intro hcat
    have hcond : ¬ c.isNumeric = true ∨ c.nuniq ≤ 5 := by
      rcases hcat with h | h
      · exact Or.inl (by simp [h])
      · exact Or.inr (hcard ▸ h)
    refine ⟨sortedStrs ((firstUniques c.presentVals).map PyVal.pyStr),
      ?_, ?_, ?_⟩
    · simp only [inferDomainCol, if_neg hlen]
      rw [if_pos hcond]
    · exact perm_stableSort _ _
    · exact pairwise_stableSort strLt strLt_asymm strLt_negtrans _
  · intro hnum hgt5 hwhole hle30
    have hfloat2 := col_presentVals_eq_nums c hnum hcells
    have hnumsne : c.nums ≠ [] := by
      intro h
      rw [hfloat2, h] at hobs
      exact hobs rfl
    have hcardnums : c.presentVals.toFinset.card = c.nums.toFinset.card := by
      rw [hfloat2, list_toFinset_map,
        Finset.card_image_of_injective _ fun a b h => by injection h]
    have hlohi : qListMin c.nums < qListMax c.nums :=
      nums_min_lt_max c hnumsne (by omega)
    have hwlo : (qListMin c.nums).den = 1 :=
      hwhole _ (qListMin_isLeast c.nums hnumsne).1
    have hwhi : (qListMax c.nums).den = 1 :=
      hwhole _ (qListMax_isGreatest c.nums hnumsne).1
    have hlocast : ((qListMin c.nums).num : ℚ) = qListMin c.nums :=
      (Rat.den_eq_one_iff _).mp hwlo
    have hhicast : ((qListMax c.nums).num : ℚ) = qListMax c.nums :=
      (Rat.den_eq_one_iff _).mp hwhi
    have hzlt : (qListMin c.nums).num < (qListMax c.nums).num := by
      have h5 : ((qListMin c.nums).num : ℚ) < ((qListMax c.nums).num : ℚ) := by
        rw [hlocast, hhicast]
        exact hlohi
      exact_mod_cast h5
    refine ⟨(qListMin c.nums).num, (qListMax c.nums).num, ?_, ?_, ?_, hzlt⟩
    · have hcond : ¬ (¬ c.isNumeric = true ∨ c.nuniq ≤ 5) := by
        simp only [hnum, not_true, false_or, not_le]
        omega
      have hcond2 : c.nums.all isWhole ∧ c.nuniq ≤ 30 := by
        refine ⟨List.all_eq_true.mpr fun q hq => ?_, by omega⟩
        simp [isWhole, hwhole q hq]
      simp only [inferDomainCol, if_neg hlen]
      rw [if_neg hcond, if_pos hcond2, if_pos hzlt]
    · exact hlocast ▸ qListMin_isLeast c.nums hnumsne
    · exact hhicast ▸ qListMax_isGreatest c.nums hnumsne
  · intro hnum hgt5 hnotwhole
    have hfloat2 := col_presentVals_eq_nums c hnum hcells
    have hnumsne : c.nums ≠ [] := by
      intro h
      rw [hfloat2, h] at hobs
      exact hobs rfl
    have hcardnums : c.presentVals.toFinset.card = c.nums.toFinset.card := by
      rw [hfloat2, list_toFinset_map,
        Finset.card_image_of_injective _ fun a b h => by injection h]
    have hlohi : qListMin c.nums < qListMax c.nums :=
      nums_min_lt_max c hnumsne (by omega)
    refine ⟨qListMin c.nums, qListMax c.nums, ?_,
      qListMin_isLeast c.nums hnumsne, qListMax_isGreatest c.nums hnumsne,
      hlohi⟩
    have hcond : ¬ (¬ c.isNumeric = true ∨ c.nuniq ≤ 5) := by
      simp only [hnum, not_true, false_or, not_le]
      omega
    have hcond2 : ¬ (c.nums.all isWhole ∧ c.nuniq ≤ 30) := by
      rcases hnotwhole with ⟨q, hq, hden⟩ | h
      · intro hc
        exact hden (by simpa [isWhole] using List.all_eq_true.mp hc.1 q hq)
      · intro hc
        omega
    simp only [inferDomainCol, if_neg hlen]
    rw [if_neg hcond, if_neg hcond2, if_pos hlohi]

/-- A numeric parameter column with six distinct whole observed values. -/
def c5Col : Col :=
  { name := "param_top_k",
    vals := [some (.floatV 1), some (.floatV 2), some (.floatV 3),
             some (.floatV 4), some (.floatV 5), some (.floatV 6)] }

theorem infer_param_space_spec_witness :
    c5Col.presentVals ≠ [] ∧
    ∃ lo hi : ℤ, inferDomainCol c5Col = some (.intRange lo hi) ∧
      IsLeast {q : ℚ | q ∈ c5Col.nums} (lo : ℚ) ∧
      IsGreatest {q : ℚ | q ∈ c5Col.nums} (hi : ℚ) ∧ lo < hi :=
  ⟨by decide,
   (infer_param_space_spec c5Col (by decide)
      (by
        intro v hv z
        simp [c5Col, Col.presentVals] at hv
        rcases hv with rfl | rfl | rfl | rfl | rfl | rfl <;> simp)).2.1
     (by decide) (by decide) (by decide) (by decide)⟩

/-!
## Claim C7 — the aggregate ranking and its tie behaviour
-/

/-- C7 (amended): the aggregate feature ranking pairs every encoded feature
with its mean absolute contribution and orders the pairs by importance,
descending; the order of tied features is the reverse of their encoded
column order (the ascending stable sort is read back to front), not the
ascending order of their names. -/
theorem importanceRanking_sorted (names : List String)
    (rows : List (List ℚ)) :
    List.Perm (importanceRanking names rows)
      (names.zip (meanAbsPerFeature names.length rows)) ∧
    (importanceRanking names rows).Pairwise fun a b => b.2 ≤ a.2 := by
  constructor
  · exact (List.reverse_perm _).trans (perm_stableSort _ _)
  · have h := pairwise_stableSort (fun a b : String × ℚ => decide (a.2 < b.2))
      (fun x y hxy => by
        simp only [decide_eq_true_eq] at hxy
        simpa using lt_asymm hxy)
      (fun x y z hxy hyz => by
        simp only [decide_eq_false_iff_not, not_lt] at hxy hyz ⊢
        exact le_trans hyz hxy)
      (names.zip (meanAbsPerFeature names.length rows))
    refine List.pairwise_reverse.mpr (h.imp ?_)
    intro a b hab
    simp only [decide_eq_false_iff_not, not_lt] at hab
    exact hab

/-- The surrogate of the tie counterexample: one tree splitting only on
feature 0 and one splitting only on feature 1, with the two encoded rows
`(0,0)` and `(1,1)` as both sample and background data — the two features
receive exactly opposite-symmetric contributions. -/
def c7Forest : Forest :=
  [.node 0 (1/2) (.leaf 0) (.leaf 1), .node 1 (1/2) (.leaf 0) (.leaf 1)]

/-- The all-zero encoded sample. -/
def c7x0 : FVec := fun _ => 0

/-- The all-one encoded sample. -/
def c7x1 : FVec := fun _ => 1

/-- The training rows of the counterexample. -/
def c7B : List FVec := [c7x0, c7x1]

/-- The per-run, per-feature contribution matrix of the counterexample. -/
def c7Rows : List (List ℚ) :=
  [[shapContribution c7Forest c7B [0, 1] c7x0 0,
    shapContribution c7Forest c7B [0, 1] c7x0 1],
   [shapContribution c7Forest c7B [0, 1] c7x1 0,
    shapContribution c7Forest c7B [0, 1] c7x1 1]]

/-- C7, counterexample: on this input the two features have equal mean
absolute contribution and `"param_a" < "param_b"`, yet the ranking lists
`"param_b"` first — the claim's tie-break by ascending feature name is
false of the code, which orders ties in reverse encoded-column order. -/
theorem importanceRanking_tie_cex :
    meanAbsPerFeature 2 c7Rows = [1/4, 1/4] ∧
    strLt "param_a" "param_b" = true ∧
    importanceRanking ["param_a", "param_b"] c7Rows =
      [("param_b", 1/4), ("param_a", 1/4)] := by
  have hrows : c7Rows = [[-(1/4), -(1/4)], [1/4, 1/4]] := by
    norm_num [c7Rows, shapContribution, shapleyValue, allPerms, insertionsAt,
      marginalContrib, prefixBefore, coalitionValue, forestPredict, blendVec,
      c7Forest, c7B, c7x0, c7x1, DTree.eval, List.takeWhile]
  have hmean : meanAbsPerFeature 2 c7Rows = [1/4, 1/4] := by
    rw [hrows]
    norm_num [meanAbsPerFeature, List.range_succ]
  refine ⟨hmean, by decide, ?_⟩
  rw [importanceRanking]
  have h2 : (2 : ℕ) = (["param_a", "param_b"] : List String).length := rfl
  rw [← h2, hmean]
  norm_num [stableSort, stableInsert]

/-!
## Claim C1 — the efficiency property of the attribution
-/

theorem perm_of_mem_insertionsAt {a : α} :
    ∀ {l : List α} {p : List α}, p ∈ insertionsAt a l → List.Perm p (a :: l) := by
  intro l
  induction l with
  | nil =>
    intro p hp
    simp only [insertionsAt, List.mem_singleton] at hp
    exact hp ▸ List.Perm.refl _
  | cons b t ih =>
    intro p hp
    simp only [insertionsAt, List.mem_cons, List.mem_map] at hp
    rcases hp with rfl | ⟨q, hq, rfl⟩
    · exact List.Perm.refl _
    · exact ((ih hq).cons b).trans (List.Perm.swap a b t)

theorem perm_of_mem_allPerms :
    ∀ {l : List α} {p : List α}, p ∈ allPerms l → List.Perm p l := by
  intro l
  induction l with
  | nil =>
    intro p hp
    simp only [allPerms, List.mem_singleton] at hp
    exact hp ▸ List.Perm.refl _
  | cons a t ih =>
    intro p hp
    simp only [allPerms, List.mem_flatMap] at hp
    rcases hp with ⟨q, hq, hpq⟩
    exact (perm_of_mem_insertionsAt hpq).trans ((ih hq).cons a)

theorem insertionsAt_ne_nil (a : α) (l : List α) : insertionsAt a l ≠ [] := by
  cases l <;> simp [insertionsAt]

theorem allPerms_ne_nil : ∀ l : List α, allPerms l ≠ [] := by
  intro l
  induction l with
  | nil => simp [allPerms]
  | cons a t ih =>
    intro h
    rcases List.exists_mem_of_ne_nil _ ih with ⟨q, hq⟩
    have := List.flatMap_eq_nil_iff.mp h q hq
    exact insertionsAt_ne_nil a q this

theorem list_sum_map_add (l : List α) (g h : α → ℚ) :
    (l.map fun a => g a + h a).sum = (l.map g).sum + (l.map h).sum := by
  induction l with
  | nil => simp
  | cons a t ih =>
    simp only [List.map_cons, List.sum_cons, ih]
    ring

theorem list_sum_map_const (l : List α) (c : ℚ) :
    (l.map fun _ => c).sum = l.length * c := by
  induction l with
  | nil => simp
  | cons a t ih =>
    simp only [List.map_cons, List.sum_cons, ih, List.length_cons]
    push_cast
    ring

theorem list_sum_map_div (l : List α) (g : α → ℚ) (d : ℚ) :
    (l.map fun a => g a / d).sum = (l.map g).sum / d := by
  induction l with
  | nil => simp
  | cons a t ih =>
    simp only [List.map_cons, List.sum_cons, ih]
    ring

theorem list_sum_comm (l1 : List α) (l2 : List β) (f : α → β → ℚ) :
    (l1.map fun a => (l2.map fun b => f a b).sum).sum =
      (l2.map fun b => (l1.map fun a => f a b).sum).sum := by
  induction l1 with
  | nil => simp [list_sum_map_const]
  | cons a t ih =>
    simp only [List.map_cons, List.sum_cons, ih, ← list_sum_map_add]

theorem prefixBefore_cons_self (a : ℕ) (rest : List ℕ) :
    prefixBefore (a :: rest) a = [] := by
  simp [prefixBefore]

theorem prefixBefore_cons_ne (a i : ℕ) (rest : List ℕ) (h : i ≠ a) :
    prefixBefore (a :: rest) i = a :: prefixBefore rest i := by
  simp [prefixBefore, Ne.symm h]

theorem marginal_telescope (p : List ℕ) :
    ∀ v : Finset ℕ → ℚ, p.Nodup →
      (p.map (marginalContrib v p)).sum = v p.toFinset - v ∅ := by
  induction p with
  | nil =>
    intro v _
    simp
  | cons a rest ih =>
    intro v hnd
    rcases List.nodup_cons.mp hnd with ⟨hna, hndr⟩
    have hhead : marginalContrib v (a :: rest) a = v {a} - v ∅ := by
      rw [marginalContrib, prefixBefore_cons_self]
      simp
    have htail : ∀ i ∈ rest, marginalContrib v (a :: rest) i =
        marginalContrib (fun S => v (insert a S)) rest i := by
      intro i hi
      have hia : i ≠ a := fun h => hna (h ▸ hi)
      rw [marginalContrib, marginalContrib, prefixBefore_cons_ne a i rest hia]
      simp only [List.toFinset_cons]
      rw [Finset.Insert.comm]
    calc (List.map (marginalContrib v (a :: rest)) (a :: rest)).sum
        = marginalContrib v (a :: rest) a +
          (rest.map (marginalContrib v (a :: rest))).sum := by
          simp
      _ = (v {a} - v ∅) +
          (rest.map (marginalContrib (fun S => v (insert a S)) rest)).sum := by
          rw [hhead, List.map_congr_left htail]
      _ = (v {a} - v ∅) + (v (insert a rest.toFinset) - v {a}) := by
          rw [ih (fun S => v (insert a S)) hndr]
          simp
      _ = v (a :: rest).toFinset - v ∅ := by
          rw [List.toFinset_cons]
          ring

theorem shapley_efficiency (v : Finset ℕ → ℚ) (L : List ℕ) (hL : L.Nodup) :
    (L.map (shapleyValue v L)).sum = v L.toFinset - v ∅ := by
  have hN : ((allPerms L).length : ℚ) ≠ 0 := by
    simpa using fun h => allPerms_ne_nil L (List.length_eq_zero.mp h)
  unfold shapleyValue
  rw [list_sum_map_div L (fun i => ((allPerms L).map
    fun p => marginalContrib v p i).sum) ((allPerms L).length : ℚ)]
  rw [list_sum_comm L (allPerms L) fun i p => marginalContrib v p i]
  have hconst : ∀ p ∈ allPerms L,
      (L.map fun i => marginalContrib v p i).sum = v L.toFinset - v ∅ := by
    intro p hp
    have hperm := perm_of_mem_allPerms hp
    have hpnd : p.Nodup := hperm.nodup_iff.mpr hL
    have hsum : (L.map fun i => marginalContrib v p i).sum =
        (p.map fun i => marginalContrib v p i).sum :=
      ((hperm.map (marginalContrib v p)).sum_eq).symm
    rw [hsum]
    have := marginal_telescope p v hpnd
    rw [this, List.toFinset_eq_of_perm p L hperm]
  rw [List.map_congr_left hconst, list_sum_map_const]
  field_simp

theorem eval_congr (t : DTree) (x y : FVec)
    (h : ∀ f ∈ t.featSet, y f = x f) : t.eval y = t.eval x := by
  induction t with
  | leaf v => rfl
  | node f thr l r ihl ihr =>
    have hf : y f = x f := h f (by simp [DTree.featSet])
    have hl : ∀ g ∈ l.featSet, y g = x g := fun g hg =>
      h g (by simp [DTree.featSet, hg])
    have hr : ∀ g ∈ r.featSet, y g = x g := fun g hg =>
      h g (by simp [DTree.featSet, hg])
    simp only [DTree.eval, hf, ihl hl, ihr hr]

theorem coalitionValue_empty (Fo : Forest) (B : List FVec) (x : FVec) :
    coalitionValue Fo B x ∅ = shapBaseline Fo B := by
  have hmap : B.map (fun z => forestPredict Fo (blendVec x z ∅)) =
      B.map (forestPredict Fo) := by
    refine List.map_congr_left fun z _ => ?_
    have hz : blendVec x z ∅ = z := by
      funext f
      simp [blendVec]
    rw [hz]
  unfold coalitionValue shapBaseline
  rw [hmap]

theorem coalitionValue_full (Fo : Forest) (B : List FVec) (x : FVec)
    (S : Finset ℕ) (hS : ∀ t ∈ Fo, t.featSet ⊆ S) (hB : B ≠ []) :
    coalitionValue Fo B x S = forestPredict Fo x := by
  have hmap : B.map (fun z => forestPredict Fo (blendVec x z S)) =
      B.map fun _ => forestPredict Fo x := by
    refine List.map_congr_left fun z _ => ?_
    unfold forestPredict
    have hmap2 : Fo.map (fun t => t.eval (blendVec x z S)) =
        Fo.map fun t => t.eval x :=
      List.map_congr_left fun t ht =>
        eval_congr t x (blendVec x z S) fun f hf => by
          simp [blendVec, hS t ht hf]
    rw [hmap2]
  have hlen : ((B.length : ℚ)) ≠ 0 := by
    simpa using fun h => hB (List.length_eq_zero.mp h)
  unfold coalitionValue
  rw [hmap, list_sum_map_const]
  field_simp

/-- C1: for every run (encoded sample) `x`, the attribution engine's
per-feature contributions over the encoded feature set sum to the
surrogate ensemble's prediction at `x` minus the baseline (the average
prediction over the training set), within the `1e-6` tolerance — the sum
is in fact exactly equal. -/
theorem shap_sum_matches_prediction (Fo : Forest) (B : List FVec)
    (L : List ℕ) (x : FVec) (hnd : L.Nodup)
    (hfeat : ∀ t ∈ Fo, t.featSet ⊆ L.toFinset) (hB : B ≠ []) :
    |(L.map (shapContribution Fo B L x)).sum -
      (forestPredict Fo x - shapBaseline Fo B)| ≤ 1 / 1000000 := by
  have h := shapley_efficiency (coalitionValue Fo B x) L hnd
  have hful := coalitionValue_full Fo B x L.toFinset hfeat hB
  have hemp := coalitionValue_empty Fo B x
  have heq : (L.map (shapContribution Fo B L x)).sum =
      forestPredict Fo x - shapBaseline Fo B := by
    unfold shapContribution
    rw [h, hful, hemp]
  rw [heq]
  simp

theorem shap_sum_matches_prediction_witness :
    ([0] : List ℕ).Nodup ∧
    |(([0] : List ℕ).map (shapContribution [DTree.node 0 (1/2)
        (.leaf 0) (.leaf 1)] c7B [0] c7x1)).sum -
      (forestPredict [DTree.node 0 (1/2) (.leaf 0) (.leaf 1)] c7x1 -
        shapBaseline [DTree.node 0 (1/2) (.leaf 0) (.leaf 1)] c7B)| ≤
      1 / 1000000 :=
  ⟨by decide,
   shap_sum_matches_prediction [DTree.node 0 (1/2) (.leaf 0) (.leaf 1)]
     c7B [0] c7x1 (by decide)
     (by
       intro t ht
       rcases List.mem_singleton.mp ht with rfl
       decide)
     (List.cons_ne_nil _ _)⟩

/-!
## Claim C4 — automatic treatment selection
-/

theorem argmaxStep_fold_mono (f : α → ℚ) (cond : α → Bool) :
    ∀ (l : List α) (acc : Option α × ℚ),
      acc.2 ≤ (l.foldl (argmaxStep f cond) acc).2 := by
  intro l
  induction l with
  | nil => intro acc; simp
  | cons a t ih =>
    intro acc
    rw [List.foldl_cons]
    refine le_trans ?_ (ih (argmaxStep f cond acc a))
    unfold argmaxStep
    split
    · rename_i h
      exact le_of_lt h.2
    · exact le_rfl

theorem argmaxStep_fold_bound (f : α → ℚ) (cond : α → Bool) :
    ∀ (l : List α) (acc : Option α × ℚ) (y : α), y ∈ l → cond y = true →
      f y ≤ (l.foldl (argmaxStep f cond) acc).2 := by
  intro l
  induction l with
  | nil => intro acc y hy; simp at hy
  | cons a t ih =>
    intro acc y hy hcy
    rw [List.foldl_cons]
    rcases List.mem_cons.mp hy with rfl | hyt
    · refine le_trans ?_ (argmaxStep_fold_mono f cond t (argmaxStep f cond acc y))
      unfold argmaxStep
      split
      · rename_i h
        exact le_rfl
      · rename_i h
        rw [not_and_or] at h
        rcases h with h | h
        · exact absurd hcy h
        · exact le_of_not_lt h
    · exact ih (argmaxStep f cond acc a) y hyt hcy

theorem argmaxStep_fold_cases (f : α → ℚ) (cond : α → Bool) :
    ∀ (l : List α) (acc : Option α × ℚ),
      l.foldl (argmaxStep f cond) acc = acc ∨
      ∃ x ∈ l, l.foldl (argmaxStep f cond) acc = (some x, f x) ∧
        cond x = true ∧ acc.2 < f x := by
  intro l
  induction l with
  | nil => intro acc; exact Or.inl rfl
  | cons a t ih =>
    intro acc
    rw [List.foldl_cons]
    by_cases h : cond a = true ∧ acc.2 < f a
    · have hstep : argmaxStep f cond acc a = (some a, f a) := by
        unfold argmaxStep
        rw [if_pos ⟨h.1, h.2⟩]
      rw [hstep]
      rcases ih (some a, f a) with h2 | ⟨x, hx, h2, hc, hlt⟩
      · exact Or.inr ⟨a, List.mem_cons_self _ _, h2, h.1, h.2⟩
      · exact Or.inr ⟨x, List.mem_cons_of_mem _ hx, h2, hc,
          lt_trans h.2 hlt⟩
    · have hstep : argmaxStep f cond acc a = acc := by
        unfold argmaxStep
        rw [if_neg]
        exact fun hc => h ⟨hc.1, hc.2⟩
      rw [hstep]
      rcases ih acc with h2 | ⟨x, hx, h2, hc, hlt⟩
      · exact Or.inl h2
      · exact Or.inr ⟨x, List.mem_cons_of_mem _ hx, h2, hc, hlt⟩

theorem maxByFold_mem (f : α → ℚ) :
    ∀ (t : List α) (c : α),
      t.foldl (fun b d => if f b < f d then d else b) c ∈ c :: t := by
  intro t
  induction t with
  | nil => intro c; simp
  | cons d t ih =>
    intro c
    rw [List.foldl_cons]
    by_cases hcd : f c < f d
    · rw [if_pos hcd]
      rcases List.mem_cons.mp (ih d) with h | h
      · rw [h]
        exact List.mem_cons_of_mem _ (List.mem_cons_self _ _)
      · exact List.mem_cons_of_mem _ (List.mem_cons_of_mem _ h)
    · rw [if_neg hcd]
      rcases List.mem_cons.mp (ih c) with h | h
      · rw [h]
        exact List.mem_cons_self _ _
      · exact List.mem_cons_of_mem _ (List.mem_cons_of_mem _ h)

theorem maxByFold_ge (f : α → ℚ) :
    ∀ (t : List α) (c : α) (y : α), y ∈ c :: t →
      f y ≤ f (t.foldl (fun b d => if f b < f d then d else b) c) := by
  intro t
  induction t with
  | nil =>
    intro c y hy
    rcases List.mem_cons.mp hy with rfl | h
    · exact le_rfl
    · simp at h
  | cons d t ih =>
    intro c y hy
    rw [List.foldl_cons]
    have hc : f c ≤ f (if f c < f d then d else c) := by
      split
      · rename_i h
        exact le_of_lt h
      · exact le_rfl
    have hd : f d ≤ f (if f c < f d then d else c) := by
      split
      · exact le_rfl
      · rename_i h
        exact le_of_not_lt h
    rcases List.mem_cons.mp hy with rfl | hyt
    · exact le_trans hc (ih _ _ (List.mem_cons_self _ _))
    · rcases List.mem_cons.mp hyt with rfl | hyt2
      · exact le_trans hd (ih _ _ (List.mem_cons_self _ _))
      · exact ih _ y (List.mem_cons_of_mem _ hyt2)

theorem mem_catPairs {F : Frame} {c : Col} {v : PyVal} :
    (c, v) ∈ F.catPairs ↔
      c ∈ F.catFeats ∧ v ∈ firstUniques c.presentVals := by
  simp only [Frame.catPairs, List.mem_flatMap, List.mem_map]
  constructor
  · rintro ⟨a, ha, w, hw, hav⟩
    injection hav with h1 h2
    subst h1
    subst h2
    exact ⟨ha, hw⟩
  · rintro ⟨hc, hv⟩
    exact ⟨c, hc, v, hv, rfl⟩

/-- C4 (amended): when no treatment parameter is supplied, the causal
estimator selects, in order: (1) if some parameter has exactly two distinct
observed values, such a parameter (the first); (2) else, among the
categories of categorical parameters — restricted to categories with at
least two runs having a non-missing target and with mean-target deviation
strictly above the `-999.0` sentinel — a category of maximal deviation of
its group mean target from the overall mean target, with treatment `1` for
that category and `0` for every other value; (3) else a numeric varying
parameter of maximal observed variance, whose median binarization marks
with `1` exactly the values strictly above the median; when nothing
qualifies the selection declines. -/
theorem autoTreatment_spec (F : Frame) :
    ((∃ c ∈ F.feats, c.nuniq = 2) →
      ∃ c, autoTreatment F = some (.binaryFirst c) ∧ c ∈ F.feats ∧
        c.nuniq = 2) ∧
    (F.binaryFeats = [] → ∀ c v, autoTreatment F = some (.catBest c v) →
      c ∈ F.catFeats ∧ v ∈ firstUniques c.presentVals ∧
      2 ≤ (F.grpTargets c v).length ∧ -999 < F.deltaOf c v ∧
      ∀ c2 v2, c2 ∈ F.catFeats → v2 ∈ firstUniques c2.presentVals →
        2 ≤ (F.grpTargets c2 v2).length →
        F.deltaOf c2 v2 ≤ F.deltaOf c v) ∧
    (F.binaryFeats = [] →
      (∃ p ∈ F.catPairs, 2 ≤ (F.grpTargets p.1 p.2).length ∧
        -999 < F.deltaOf p.1 p.2) →
      ∃ c v, autoTreatment F = some (.catBest c v)) ∧
    (F.binaryFeats = [] → F.bestCatPair = none →
      ∀ c, autoTreatment F = some (.numHighVar c) →
        c ∈ F.feats ∧ c.isNumeric = true ∧ 1 < c.nuniq ∧
        ∀ c2 ∈ F.feats, c2.isNumeric = true → 1 < c2.nuniq →
          qVar c2.nums ≤ qVar c.nums) ∧
    (F.binaryFeats = [] → F.bestCatPair = none → F.numVaryingFeats ≠ [] →
      ∃ c, autoTreatment F = some (.numHighVar c)) ∧
    (F.binaryFeats = [] → F.bestCatPair = none → F.numVaryingFeats = [] →
      autoTreatment F = none) ∧
    (∀ (c : Col) (pos : PyVal) (i : ℕ) (w : Option PyVal),
      c.vals[i]? = some w →
      ((catIndicator c pos)[i]? = some 1 ↔ w = some pos)) ∧
    (∀ (c : Col) (i : ℕ) (q : ℚ), c.cellNums[i]? = some (some q) →
      ((binarizeAtMedian c)[i]? = some 1 ↔ (qMedian c.nums).getD 0 < q)) := by
  refine ⟨?_, ?_, ?_, ?_, ?_, ?_, ?_, ?_⟩
  · rintro ⟨c0, hc0, hn0⟩
    have hmem : c0 ∈ F.binaryFeats :=
      List.mem_filter.mpr ⟨hc0, by simp [hn0]⟩
    cases hbf : F.binaryFeats with
    | nil =>
      rw [hbf] at hmem
      simp at hmem
    | cons chead rest =>
      refine ⟨chead, by simp only [autoTreatment, hbf], ?_, ?_⟩
      · have : chead ∈ F.binaryFeats := hbf ▸ List.mem_cons_self _ _
        exact (List.mem_filter.mp this).1
      · have : chead ∈ F.binaryFeats := hbf ▸ List.mem_cons_self _ _
        simpa using (List.mem_filter.mp this).2
  · intro hb c v hsel
    simp only [autoTreatment, hb] at hsel
    cases hbp : F.bestCatPair with
    | none =>
      rw [hbp] at hsel
      cases hfm : firstMaxBy (fun c => qVar c.nums) F.numVaryingFeats with
      | none =>
        rw [hfm] at hsel
        simp at hsel
      | some c2 =>
        rw [hfm] at hsel
        simp at hsel
    | some p =>
      rw [hbp] at hsel
      simp only [Option.some.injEq] at hsel
      have hp1 : p.1 = c := by
        injection hsel
      have hp2 : p.2 = v := by
        injection hsel
      have hpcv : p = (c, v) := Prod.ext hp1 hp2
      subst hpcv
      unfold Frame.bestCatPair argmaxAbove at hbp
      rcases argmaxStep_fold_cases (fun p => F.deltaOf p.1 p.2)
        (fun p => decide (2 ≤ (F.grpTargets p.1 p.2).length))
        F.catPairs (none, -999) with hcase | ⟨x, hx, heq, hcx, hlt⟩
      · rw [hcase] at hbp
        simp at hbp
      · rw [heq] at hbp
        simp only [Option.some.injEq] at hbp
        subst hbp
        rcases mem_catPairs.mp hx with ⟨hcf, hvf⟩
        refine ⟨hcf, hvf, by simpa using hcx, hlt, ?_⟩
        intro c2 v2 hc2 hv2 hlen2
        have hb2 := argmaxStep_fold_bound (fun p => F.deltaOf p.1 p.2)
          (fun p => decide (2 ≤ (F.grpTargets p.1 p.2).length))
          F.catPairs (none, -999) (c2, v2) (mem_catPairs.mpr ⟨hc2, hv2⟩)
          (by simpa using hlen2)
        rw [heq] at hb2
        exact hb2
  · rintro hb ⟨p, hp, hlen, hdelta⟩
    have hne : F.bestCatPair ≠ none := by
      intro hnone
      unfold Frame.bestCatPair argmaxAbove at hnone
      rcases argmaxStep_fold_cases (fun p => F.deltaOf p.1 p.2)
        (fun p => decide (2 ≤ (F.grpTargets p.1 p.2).length))
        F.catPairs (none, -999) with hcase | ⟨x, hx, heq, hcx, hlt⟩
      · have hb2 := argmaxStep_fold_bound (fun p => F.deltaOf p.1 p.2)
          (fun p => decide (2 ≤ (F.grpTargets p.1 p.2).length))
          F.catPairs (none, -999) p hp (by simpa using hlen)
        rw [hcase] at hb2
        exact absurd (lt_of_lt_of_le hdelta hb2) (lt_irrefl _)
      · rw [heq] at hnone
        simp at hnone
    rcases Option.ne_none_iff_exists.mp hne with ⟨q, hq⟩
    exact ⟨q.1, q.2, by simp only [autoTreatment, hb, ← hq]⟩
  · intro hb hbp c hsel
    simp only [autoTreatment, hb, hbp] at hsel
    cases hfm : firstMaxBy (fun c => qVar c.nums) F.numVaryingFeats with
    | none =>
      rw [hfm] at hsel
      simp at hsel
    | some c2 =>
      rw [hfm] at hsel
      simp only [Option.some.injEq] at hsel
      have hc2c : c2 = c := by
        injection hsel
      subst hc2c
      cases hnv : F.numVaryingFeats with
      | nil =>
        rw [hnv] at hfm
        simp [firstMaxBy] at hfm
      | cons c0 rest =>
        rw [hnv] at hfm
        simp only [firstMaxBy, Option.some.injEq] at hfm
        have hmem : c2 ∈ F.numVaryingFeats := by
          rw [hnv, ← hfm]
          exact maxByFold_mem _ rest c0
        have hprops := List.mem_filter.mp hmem
        have hnumeric : c2.isNumeric = true ∧ 1 < c2.nuniq := by
          simpa using hprops.2
        refine ⟨hprops.1, hnumeric.1, hnumeric.2, ?_⟩
        intro c3 hc3 hnum3 hnu3
        have hmem3 : c3 ∈ F.numVaryingFeats :=
          List.mem_filter.mpr ⟨hc3, by simp [hnum3, hnu3]⟩
        rw [hnv] at hmem3
        have := maxByFold_ge (fun c => qVar c.nums) rest c0 c3 hmem3
        rw [hfm] at this
        exact this
  · intro hb hbp hne
    cases hnv : F.numVaryingFeats with
    | nil => exact absurd hnv hne
    | cons c0 rest =>
      refine ⟨rest.foldl (fun b d => if qVar b.nums < qVar d.nums then d
        else b) c0, ?_⟩
      simp only [autoTreatment, hb, hbp, hnv, firstMaxBy]
  · intro hb hbp hnil
    simp only [autoTreatment, hb, hbp, hnil, firstMaxBy]
  · intro c pos i w hw
    unfold catIndicator
    rw [List.getElem?_map, hw]
    by_cases hwp : w = some pos
    · simp [hwp]
    · simp [hwp]
  · intro c i q hq
    unfold binarizeAtMedian
    rw [List.getElem?_map, hq]
    by_cases hm : (qMedian c.nums).getD 0 < q
    · simp [hm]
    · simp [hm]

/-- The categorical column of the C4 counterexample: category `"a"` occurs
once, `"b"` and `"c"` twice each. -/
def c4Col : Col :=
  { name := "param_mode",
    vals := [some (.strV "a"), some (.strV "b"), some (.strV "b"),
             some (.strV "c"), some (.strV "c")] }

/-- The C4 counterexample frame: category `"a"` has the by far highest
group mean target (50 against an overall mean of 28) but only one valid
run, so the code skips it. -/
def c4Frame : Frame :=
  { feats := [c4Col],
    target := [some 50, some 25, some 25, some 20, some 20] }

/-- C4, counterexample: with no binary feature, the code selects category
`"b"` (the best among categories with at least two valid runs), although
the observed category `"a"` deviates far more positively from the overall
mean target — so the claim's rule "(2) the single category whose mean
target value deviates most positively from the overall mean" is false of
the code as stated. -/
theorem autoTreatment_argmax_cex :
    autoTreatment c4Frame = some (.catBest c4Col (.strV "b")) ∧
    (PyVal.strV "a") ∈ firstUniques c4Col.presentVals ∧
    c4Frame.deltaOf c4Col (.strV "b") < c4Frame.deltaOf c4Col (.strV "a") := by
  have hbin : c4Frame.binaryFeats = [] := by decide
  have hpairs : c4Frame.catPairs =
      [(c4Col, .strV "a"), (c4Col, .strV "b"), (c4Col, .strV "c")] := by
    decide
  have hga : c4Frame.grpTargets c4Col (.strV "a") = [50] := by decide
  have hgb : c4Frame.grpTargets c4Col (.strV "b") = [25, 25] := by decide
  have hgc : c4Frame.grpTargets c4Col (.strV "c") = [20, 20] := by decide
  have hvalid : c4Frame.validTargets = [50, 25, 25, 20, 20] := by decide
  have hmean : c4Frame.overallMean = 28 := by
    rw [Frame.overallMean, hvalid]
    norm_num [qMean]
  have hda : c4Frame.deltaOf c4Col (.strV "a") = 22 := by
    unfold Frame.deltaOf
    rw [hga, hmean]
    norm_num [qMean]
  have hdb : c4Frame.deltaOf c4Col (.strV "b") = -3 := by
    unfold Frame.deltaOf
    rw [hgb, hmean]
    norm_num [qMean]
  have hdc : c4Frame.deltaOf c4Col (.strV "c") = -8 := by
    unfold Frame.deltaOf
    rw [hgc, hmean]
    norm_num [qMean]
  have hbest : c4Frame.bestCatPair = some (c4Col, .strV "b") := by
    unfold Frame.bestCatPair argmaxAbove
    rw [hpairs]
    simp only [List.foldl_cons, List.foldl_nil, argmaxStep]
    rw [hga, hgb, hgc]
    norm_num [hda, hdb, hdc]
  refine ⟨?_, by decide, ?_⟩
  · simp only [autoTreatment, hbin, hbest]
  · rw [hda, hdb]
    norm_num

theorem autoTreatment_spec_witness :
    (∃ c ∈ c3Frame.feats, c.nuniq = 2) ∧
    ∃ c, autoTreatment c3Frame = some (.binaryFirst c) ∧
      c ∈ c3Frame.feats ∧ c.nuniq = 2 :=
  ⟨by decide, (autoTreatment_spec c3Frame).1 (by decide)⟩
